import Mathlib

/-!
Verification of the alignment subsystem of the croonify repository
(`backend/alignment_fallback.py` and `backend/alignment_aeneas.py`).

Times are modelled in integer milliseconds (`ℤ`), matching Python's
arbitrary-precision integers.  Python `float` arithmetic (true division
`/`, `int * float` products) is modelled exactly over `ℚ` by rounding
every operation result to the IEEE-754 binary64 grid with round to
nearest, ties to even (`fl` below).  Subnormal underflow and overflow to
infinity are not modelled: every quantity arising in the alignment code
is in the normal range.
-/

/-! ## Python float semantics -/

/-- Round a rational to the nearest integer, ties to even: the rounding
function used by IEEE-754 binary64 arithmetic. -/
def rndNE (x : ℚ) : ℤ :=
  if x - ⌊x⌋ < 1/2 then ⌊x⌋
  else if 1/2 < x - ⌊x⌋ then ⌊x⌋ + 1
  else if Even ⌊x⌋ then ⌊x⌋ else ⌊x⌋ + 1

/-- Round a positive rational to the nearest IEEE-754 binary64 value
(53-bit significand), ignoring overflow and subnormal underflow. -/
def flPos (q : ℚ) : ℚ :=
  (rndNE (q / 2 ^ (Int.log 2 q - 52)) : ℚ) * 2 ^ (Int.log 2 q - 52)

/-- Round a rational to the nearest IEEE-754 binary64 value
(normal range; round to nearest, ties to even).  This is the value
Python produces for each arithmetic operation on `float`s. -/
def fl (q : ℚ) : ℚ :=
  if q < 0 then -flPos (-q) else if q = 0 then 0 else flPos q

/-- Python's `int(...)` applied to a float value: truncation toward zero. -/
def pyInt (q : ℚ) : ℤ :=
  if q < 0 then -⌊-q⌋ else ⌊q⌋

/-! ## `backend/alignment_fallback.py` -/

/-- One element of the list returned by the fallback alignment functions:
a Python dict `{"start_ms": ..., "end_ms": ..., "text": ...}`. -/
structure FBEntry where
  start_ms : ℤ
  end_ms : ℤ
  text : String
deriving DecidableEq

/-- Python's `for i, x in enumerate(xs)` loop body collected into a list,
with the enumeration counter starting at `i`. -/
def enumMap (f : ℕ → α → β) : ℕ → List α → List β
  | _, [] => []
  | i, a :: as => f i a :: enumMap f (i + 1) as

/-- Segment construction in `align_with_detected_silences`
(`alignment_fallback.py` lines 55-68): a leading segment `[0, first
silence start]` when the first silence starts after `0`, one segment
between each adjacent pair of silences, and a trailing segment
`[last silence end, len(audio)]` when the last silence ends before the
audio does. -/
def build_segments (silences : List (ℤ × ℤ)) (audioLen : ℤ) : List (ℤ × ℤ) :=
  (match silences with
   | [] => []
   | s :: _ => if 0 < s.1 then [(0, s.1)] else []) ++
  ((silences.zip silences.tail).map fun p => (p.1.2, p.2.1)) ++
  (match silences.getLast? with
   | none => []
   | some l => if l.2 < audioLen then [(l.2, audioLen)] else [])

/-- The matching loop of `align_with_detected_silences`
(`alignment_fallback.py` lines 70-86).  `i` is the enumeration index and
`prevEnd` is `result[-1]["end_ms"] if result else 0`: the end of the
entry appended on the previous iteration, `0` before the first one.  A
lyric with a segment at its index takes that segment's bounds; a lyric
past the available segments takes `[prevEnd, len(audio)]`. -/
def match_lines (segments : List (ℤ × ℤ)) (audioLen : ℤ) :
    ℕ → ℤ → List String → List FBEntry
  | _, _, [] => []
  | i, prevEnd, t :: rest =>
    match segments[i]? with
    | some s => ⟨s.1, s.2, t⟩ :: match_lines segments audioLen (i + 1) s.2 rest
    | none => ⟨prevEnd, audioLen, t⟩ :: match_lines segments audioLen (i + 1) audioLen rest

/-- `align_with_detected_silences(audio, lyrics, silences)`
(`alignment_fallback.py` lines 42-92).  The `save_alignment` side effect
does not change the return value and is not modelled here. -/
def align_with_detected_silences (audioLen : ℤ) (lyrics : List String)
    (silences : List (ℤ × ℤ)) : List FBEntry :=
  match_lines (build_segments silences audioLen) audioLen 0 0 lyrics

/-- `align_with_equal_division(audio, lyrics)` (`alignment_fallback.py`
lines 94-128).  `segment_duration = duration / len(lyrics)` is Python
float division: with zero lyric lines it raises `ZeroDivisionError`,
modelled as `none`.  `int(i * segment_duration)` truncates the
double-precision product.  The `save_alignment` side effect is not
modelled. -/
def align_with_equal_division (audioLen : ℤ) (lyrics : List String) :
    Option (List FBEntry) :=
  if lyrics.isEmpty then none
  else
    let sd : ℚ := fl ((audioLen : ℚ) / (lyrics.length : ℚ))
    some (enumMap (fun i t =>
      ⟨pyInt (fl (fl (i : ℚ) * sd)), pyInt (fl (fl ((i : ℚ) + 1) * sd)), t⟩) 0 lyrics)

/-- `align_with_silence_detection(audio_path, lyrics_path)`
(`alignment_fallback.py` lines 9-40), given the decoded audio length,
the parsed lyric lines and the silences returned by `detect_silence`.
`exc` models "an exception was raised during silence detection or
segment matching", which lands in the `except` handler; the handler
calls `align_with_equal_division`, whose own failure on zero lyric
lines is not caught and propagates (`none`). -/
def align_with_silence_detection (audioLen : ℤ) (lyrics : List String)
    (silences : List (ℤ × ℤ)) (exc : Bool) : Option (List FBEntry) :=
  if exc then align_with_equal_division audioLen lyrics
  else if (lyrics.length : ℤ) - 1 ≤ (silences.length : ℤ) then
    some (align_with_detected_silences audioLen lyrics silences)
  else align_with_equal_division audioLen lyrics

/-! ## `backend/alignment_aeneas.py` -/

/-- JSON values as loaded by `json.load` in `parse_alignment_json`.
Artifacts written by this repository contain only integers, strings,
arrays and objects; booleans and null occur only in malformed inputs.
Object field lists are duplicate-free (`json.load` of a dict written by
`json.dump`). -/
inductive JValue where
  | jnull : JValue
  | jbool : Bool → JValue
  | jint : ℤ → JValue
  | jstr : String → JValue
  | jarr : List JValue → JValue
  | jobj : List (String × JValue) → JValue

/-- One element of the canonical list returned by `parse_alignment_json`:
`{'index': i, 'start': ..., 'end': ..., 'text': ...}`.  `start` and
`stop` (the `'end'` key) are float values in seconds; `text` is whatever
value the artifact held there. -/
structure NormEntry where
  index : ℕ
  start : ℚ
  stop : ℚ
  text : JValue

/-- Python dict lookup on a JSON object. -/
def dict_get? (fields : List (String × JValue)) (k : String) : Option JValue :=
  (fields.find? (fun p => p.1 == k)).map (·.2)

/-- Python `v.get(k, default)`: only dicts have `.get`; any other value
raises `AttributeError` (modelled `none`). -/
def py_get (v : JValue) (k : String) (dflt : JValue) : Option JValue :=
  match v with
  | .jobj fields => some ((dict_get? fields k).getD dflt)
  | _ => none

/-- Python `v[k]` for a string key `k`: dict lookup (`KeyError` when the
key is missing); any non-dict raises `TypeError`. -/
def py_index (v : JValue) (k : String) : Option JValue :=
  match v with
  | .jobj fields => dict_get? fields k
  | _ => none

/-- Python `'start_ms' in v`: key test on dicts, substring test on
strings, membership on lists; `int`, `bool` and `None` are not
containers (`TypeError`, modelled `none`). -/
def py_contains_start_ms (v : JValue) : Option Bool :=
  match v with
  | .jobj fields => some (fields.any (fun p => p.1 == "start_ms"))
  | .jstr s => some ((s.splitOn "start_ms").length != 1)
  | .jarr xs => some (xs.any (fun x =>
      match x with
      | .jstr s => s == "start_ms"
      | _ => false))
  | _ => none

/-- Python `v / 1000.0` in the fallback branch: ints and bools (bools
are ints) divide, giving a correctly rounded double; any other type
raises `TypeError`. -/
def py_div_1000 (v : JValue) : Option ℚ :=
  match v with
  | .jint n => some (fl (fl (n : ℚ) / 1000))
  | .jbool b => some (fl ((if b then (1 : ℚ) else 0) / 1000))
  | _ => none

/-- The fallback-schema loop of `parse_alignment_json`
(`alignment_aeneas.py` lines 90-98). -/
def norm_fallback : ℕ → List JValue → Option (List NormEntry)
  | _, [] => some []
  | i, item :: rest => do
    let sv ← py_index item "start_ms"
    let s ← py_div_1000 sv
    let ev ← py_index item "end_ms"
    let e ← py_div_1000 ev
    let tv ← py_index item "text"
    let tail ← norm_fallback (i + 1) rest
    some (⟨i, s, e, tv⟩ :: tail)

/-- Numeric value of a nonempty all-digit string. -/
def digits_val? (s : String) : Option ℕ :=
  if s.length ≠ 0 ∧ s.all Char.isDigit then
    some (s.foldl (fun acc c => acc * 10 + (c.toNat - 48)) 0)
  else none

/-- Plain decimal literal (`[+-]digits[.digits]`, either side of the
point optional but not both): the time format occurring in alignment
artifacts.  Exotic Python float literals (exponents, `inf`, `nan`,
underscores) are not modelled. -/
def str_to_rat? (s : String) : Option ℚ :=
  let core : String → Option ℚ := fun u =>
    match u.splitOn "." with
    | [a] => (digits_val? a).map (fun n => (n : ℚ))
    | [a, b] =>
      if a.isEmpty && b.isEmpty then none
      else
        match (if a.isEmpty then some 0 else digits_val? a),
              (if b.isEmpty then some 0 else digits_val? b) with
        | some av, some bv => some ((av : ℚ) + (bv : ℚ) / 10 ^ b.length)
        | _, _ => none
    | _ => none
  let t := s.trim
  if t.startsWith "-" then (core (t.drop 1)).map Neg.neg
  else if t.startsWith "+" then core (t.drop 1)
  else core t

/-- Python `float(v)`: ints convert (rounded to binary64), `True` and
`False` give `1.0` and `0.0`, numeric strings are parsed and rounded,
other types raise. -/
def py_float (v : JValue) : Option ℚ :=
  match v with
  | .jint n => some (fl (n : ℚ))
  | .jbool b => some (if b then 1 else 0)
  | .jstr s => (str_to_rat? s).map fl
  | _ => none

/-- Python `iter(v)` as used by `for fragment in fragments`: lists,
strings (characters) and dicts (keys) iterate; other values raise
`TypeError`. -/
def py_iter (v : JValue) : Option (List JValue) :=
  match v with
  | .jarr xs => some xs
  | .jstr s => some (s.toList.map (fun c => JValue.jstr c.toString))
  | .jobj fields => some (fields.map (fun p => JValue.jstr p.1))
  | _ => none

/-- Python `v[0]`: list/string indexing (`IndexError` when empty); other
types raise. -/
def py_index_zero (v : JValue) : Option JValue :=
  match v with
  | .jarr xs => xs[0]?
  | .jstr s => (s.toList[0]?).map (fun c => JValue.jstr c.toString)
  | _ => none

/-- The aeneas-schema loop of `parse_alignment_json`
(`alignment_aeneas.py` lines 101-110). -/
def norm_aeneas : ℕ → List JValue → Option (List NormEntry)
  | _, [] => some []
  | i, frag :: rest => do
    let bv ← py_get frag "begin" (.jint 0)
    let b ← py_float bv
    let ev ← py_get frag "end" (.jint 0)
    let e ← py_float ev
    let lv ← py_get frag "lines" (.jarr [.jstr ""])
    let tv ← py_index_zero lv
    let tail ← norm_aeneas (i + 1) rest
    some (⟨i, b, e, tv⟩ :: tail)

/-- The `data.get('fragments', [])` branch of `parse_alignment_json`
(`alignment_aeneas.py` lines 100-112): raises unless `data` is a dict. -/
def aeneas_branch (data : JValue) : Option (List NormEntry) := do
  let fv ← py_get data "fragments" (.jarr [])
  let frags ← py_iter fv
  norm_aeneas 0 frags

/-- The body of `parse_alignment_json`'s `try` block
(`alignment_aeneas.py` lines 85-112): the fallback schema is detected by
`isinstance(data, list) and len(data) > 0 and 'start_ms' in data[0]`
(short-circuiting, so the membership test only runs on a nonempty
list); everything else goes through the aeneas branch.  `none` is a
raised exception. -/
def parse_body (data : JValue) : Option (List NormEntry) :=
  match data with
  | .jarr (x :: xs) =>
    match py_contains_start_ms x with
    | none => none
    | some true => norm_fallback 0 (x :: xs)
    | some false => aeneas_branch data
  | _ => aeneas_branch data

/-- `parse_alignment_json(json_path)` (`alignment_aeneas.py` lines
73-115).  The input is `some data` when `json.load` parses the file to
`data`, and `none` for a missing, unreadable or unparseable file (the
`open`/`json.load` exception).  The boolean records whether the
`except` handler ran, i.e. whether the parse error was printed. -/
def parse_alignment_json (input : Option JValue) : List NormEntry × Bool :=
  match input with
  | none => ([], true)
  | some data =>
    match parse_body data with
    | some r => (r, false)
    | none => ([], true)

/-- `save_alignment(alignment, output_json)` (`alignment_fallback.py`
lines 130-145): the JSON value that `json.dump` writes to the artifact
file. -/
def save_alignment_json (alignment : List FBEntry) : JValue :=
  .jarr (alignment.map fun e =>
    .jobj [("start_ms", .jint e.start_ms), ("end_ms", .jint e.end_ms),
           ("text", .jstr e.text)])

/-- A well-formed fallback-schema artifact entry, as written by
`save_alignment`: a dict with `start_ms`, `end_ms` and `text` keys. -/
def fb_item (s e : ℤ) (t : JValue) : JValue :=
  .jobj [("start_ms", .jint s), ("end_ms", .jint e), ("text", t)]

/-- Structurally malformed or unrecognized artifact values: anything
that is neither a dict (candidate aeneas artifact) nor a nonempty list
whose first element passes the `start_ms` probe.  On every such value
the body of `parse_alignment_json` raises. -/
def bad_shape (v : JValue) : Bool :=
  match v with
  | .jobj _ => false
  | .jarr (x :: _) =>
    match py_contains_start_ms x with
    | some true => false
    | _ => true
  | .jarr [] => true
  | _ => true

/-! ## Rounding model: evaluation and monotonicity lemmas -/

theorem rndNE_of_lt_half {x : ℚ} {f : ℤ} (h1 : (f : ℚ) ≤ x) (h2 : x < f + 1/2) :
    rndNE x = f := by
  have hf : ⌊x⌋ = f := Int.floor_eq_iff.mpr ⟨h1, by linarith⟩
  rw [rndNE, hf, if_pos (by linarith)]

theorem rndNE_of_half_lt {x : ℚ} {f : ℤ} (h1 : (f : ℚ) + 1/2 < x) (h2 : x < f + 1) :
    rndNE x = f + 1 := by
  have hf : ⌊x⌋ = f := Int.floor_eq_iff.mpr ⟨by linarith, by linarith⟩
  rw [rndNE, hf, if_neg (by linarith), if_pos (by linarith)]

theorem int_log_eq_of {q : ℚ} {e : ℤ} (h1 : (2:ℚ) ^ e ≤ q) (h2 : q < 2 ^ (e + 1)) :
    Int.log 2 q = e := by
  have hq : 0 < q := lt_of_lt_of_le (zpow_pos (by norm_num) e) h1
  have he : e ≤ Int.log 2 q := (Int.zpow_le_iff_le_log (by norm_num) hq).mp h1
  have hlt : Int.log 2 q < e + 1 := (Int.lt_zpow_iff_log_lt (by norm_num) hq).mp h2
  omega

theorem flPos_eval {q r : ℚ} {e m : ℤ} (h1 : (2:ℚ) ^ e ≤ q) (h2 : q < 2 ^ (e + 1))
    (h3 : rndNE (q / 2 ^ (e - 52)) = m) (h4 : (m : ℚ) * 2 ^ (e - 52) = r) :
    flPos q = r := by
  rw [flPos, int_log_eq_of h1 h2, h3, h4]

theorem fl_of_pos {q : ℚ} (h : 0 < q) : fl q = flPos q := by
  rw [fl, if_neg (by linarith), if_neg (by linarith)]

theorem fl_zero : fl 0 = 0 := by norm_num [fl]

/-! ## Lemmas about the fallback alignment -/

theorem match_lines_map_text (segs : List (ℤ × ℤ)) (D : ℤ) :
    ∀ (lines : List String) (i0 : ℕ) (prev : ℤ),
      (match_lines segs D i0 prev lines).map FBEntry.text = lines
  | [], _, _ => rfl
  | _ :: rest, i0, prev => by
    rw [match_lines]
    cases segs[i0]? <;>
      simp only [List.map_cons, match_lines_map_text segs D rest]

theorem enumMap_map_eq (g : β → α) (f : ℕ → α → β) (h : ∀ i a, g (f i a) = a) :
    ∀ (i : ℕ) (l : List α), (enumMap f i l).map g = l
  | _, [] => rfl
  | i, a :: as => by
    rw [enumMap, List.map_cons, h, enumMap_map_eq g f h (i + 1) as]

theorem enumMap_getElem? (f : ℕ → α → β) :
    ∀ (i : ℕ) (l : List α) (j : ℕ), (enumMap f i l)[j]? = (l[j]?).map (f (i + j))
  | _, [], j => by simp [enumMap]
  | i, a :: as, 0 => by simp [enumMap]
  | i, a :: as, j + 1 => by
    simp only [enumMap, List.getElem?_cons_succ]
    rw [enumMap_getElem? f (i + 1) as j, show i + 1 + j = i + (j + 1) by omega]

theorem enumMap_length (f : ℕ → α → β) :
    ∀ (i : ℕ) (l : List α), (enumMap f i l).length = l.length
  | _, [] => rfl
  | i, a :: as => by rw [enumMap, List.length_cons, List.length_cons,
      enumMap_length f (i + 1) as]

/-- When matching starts past the segments, the first lyric takes
`[prev, D]`. -/
theorem match_lines_head_overflow (segs : List (ℤ × ℤ)) (D : ℤ) (t : String)
    (rest : List String) (i0 : ℕ) (prev : ℤ) (h : segs.length ≤ i0) :
    (match_lines segs D i0 prev (t :: rest))[0]?.map
      (fun e => (e.start_ms, e.end_ms)) = some (prev, D) := by
  simp [match_lines, List.getElem?_eq_none h]

/-- A lyric whose (offset) index has a segment takes that segment's
bounds. -/
theorem match_lines_bounds_matched (segs : List (ℤ × ℤ)) (D : ℤ) :
    ∀ (lines : List String) (i0 : ℕ) (prev : ℤ) (j : ℕ), j < lines.length →
      i0 + j < segs.length →
      (match_lines segs D i0 prev lines)[j]?.map
        (fun e => (e.start_ms, e.end_ms)) = segs[i0 + j]?
  | [], _, _, j, hj, _ => absurd hj (by simp)
  | _ :: _, i0, _, 0, _, hi => by
    obtain ⟨s, hseg⟩ : ∃ s, segs[i0]? = some s :=
      ⟨_, List.getElem?_eq_getElem (by omega)⟩
    simp [match_lines, hseg]
  | _ :: rest, i0, _, j + 1, hj, hi => by
    obtain ⟨s, hseg⟩ : ∃ s, segs[i0]? = some s :=
      ⟨_, List.getElem?_eq_getElem (by omega)⟩
    have hk : j < rest.length := by simpa using hj
    simp only [match_lines, hseg, List.getElem?_cons_succ]
    rw [match_lines_bounds_matched segs D rest (i0 + 1) s.2 j hk (by omega)]
    congr 1
    omega

/-- The first lyric past the segments (offset index exactly at the
segment count) takes `[prev, D]` when no segment was consumed, and
`[last segment end, D]` otherwise. -/
theorem match_lines_bounds_boundary (segs : List (ℤ × ℤ)) (D : ℤ) :
    ∀ (lines : List String) (i0 : ℕ) (prev : ℤ) (j : ℕ), j < lines.length →
      i0 + j = segs.length →
      (match_lines segs D i0 prev lines)[j]?.map
        (fun e => (e.start_ms, e.end_ms)) =
        some ((if j = 0 then prev
               else (segs[segs.length - 1]?.map Prod.snd).getD 0), D)
  | [], _, _, j, hj, _ => absurd hj (by simp)
  | t :: rest, i0, prev, 0, _, hb => by
    have hseg : segs[i0]? = none := List.getElem?_eq_none (by omega)
    simp [match_lines, hseg]
  | _ :: rest, i0, _, j + 1, hj, hb => by
    obtain ⟨s, hseg⟩ : ∃ s, segs[i0]? = some s :=
      ⟨_, List.getElem?_eq_getElem (by omega)⟩
    have hk : j < rest.length := by simpa using hj
    simp only [match_lines, hseg, List.getElem?_cons_succ]
    rw [match_lines_bounds_boundary segs D rest (i0 + 1) s.2 j hk (by omega)]
    by_cases hj0 : j = 0
    · subst hj0
      have h1 : segs.length - 1 = i0 := by omega
      simp [h1, hseg]
    · rw [if_neg hj0, if_neg (by omega)]

/-- Every lyric strictly past the first overflow lyric takes the
degenerate bounds `[D, D]`. -/
theorem match_lines_bounds_past (segs : List (ℤ × ℤ)) (D : ℤ) :
    ∀ (lines : List String) (i0 : ℕ) (prev : ℤ) (j : ℕ), j < lines.length →
      segs.length < i0 + j → j ≠ 0 →
      (match_lines segs D i0 prev lines)[j]?.map
        (fun e => (e.start_ms, e.end_ms)) = some (D, D)
  | [], _, _, j, hj, _, _ => absurd hj (by simp)
  | _ :: _, _, _, 0, _, _, hj0 => absurd rfl hj0
  | _ :: rest, i0, prev, j + 1, hj, hpast, _ => by
    have hk : j < rest.length := by simpa using hj
    cases hseg : segs[i0]? with
    | some s =>
      have hi : i0 < segs.length := by
        by_contra hc
        rw [List.getElem?_eq_none (by omega)] at hseg
        exact Option.noConfusion hseg
      simp only [match_lines, hseg, List.getElem?_cons_succ]
      exact match_lines_bounds_past segs D rest (i0 + 1) s.2 j hk (by omega)
        (by omega)
    | none =>
      have hi : segs.length ≤ i0 := by
        by_contra hc
        rw [List.getElem?_eq_getElem (by omega)] at hseg
        exact Option.noConfusion hseg
      simp only [match_lines, hseg, List.getElem?_cons_succ]
      by_cases hj0 : j = 0
      · subst hj0
        cases rest with
        | nil => simp at hk
        | cons t2 r2 =>
          exact match_lines_head_overflow segs D t2 r2 (i0 + 1) D (by omega)
      · exact match_lines_bounds_past segs D rest (i0 + 1) D j hk (by omega) hj0

/-! ## Claims C1-C4, C6 -/

/-- C1: for every non-empty lyric sequence, every audio duration and
every silence list, the silence-based alignment — whichever branch it
takes, including the exception path — returns `some` list whose texts,
in order, are exactly the lyric lines (hence the length equals the
number of lyric lines and the `i`-th entry carries the `i`-th line's
text). -/
theorem C1_alignment_length_and_texts (audioLen : ℤ) (lyrics : List String)
    (silences : List (ℤ × ℤ)) (exc : Bool) (h : lyrics ≠ []) :
    ∃ r, align_with_silence_detection audioLen lyrics silences exc = some r ∧
      r.map FBEntry.text = lyrics := by
  have hEq : ∃ r, align_with_equal_division audioLen lyrics = some r ∧
      r.map FBEntry.text = lyrics := by
    rw [align_with_equal_division, if_neg (by simpa using h)]
    exact ⟨_, rfl, enumMap_map_eq _ _ (fun i a => rfl) 0 lyrics⟩
  rw [align_with_silence_detection]
  split_ifs with h1 h2
  · exact hEq
  · refine ⟨_, rfl, ?_⟩
    rw [align_with_detected_silences]
    exact match_lines_map_text _ _ lyrics 0 0
  · exact hEq

theorem C1_witness :
    ∃ r, align_with_silence_detection 3 ["a"] [] false = some r ∧
      r.map FBEntry.text = ["a"] :=
  C1_alignment_length_and_texts 3 ["a"] [] false (by decide)

/-- C2, counterexample: with lines `["a","b","c"]`, a single segment
`[0,100]` and audio length `300`, the two overflow lines get bounds
`(100, 300)` and `(300, 300)` — they do not share identical bounds, so
"all overflow lines share identical start and end bounds" fails. -/
theorem C2_counterexample :
    (match_lines [((0:ℤ), (100:ℤ))] 300 0 0 ["a", "b", "c"]).map
        (fun e => (e.start_ms, e.end_ms)) = [(0, 100), (100, 300), (300, 300)] ∧
    ((100:ℤ), (300:ℤ)) ≠ ((300:ℤ), (300:ℤ)) := by decide

/-- C2, amended: when there are more lines than segments, line `i`
with `i < len(segments)` gets segment `i`'s bounds; the first overflow
line gets `[last segment end (0 when there are no segments), D]`; and
every overflow line after the first gets the degenerate bounds
`[D, D]`.  Overflow lines therefore share identical bounds only from
the second overflow line on. -/
theorem C2_amended_matcher_overflow (lines : List String) (segs : List (ℤ × ℤ))
    (D : ℤ) (h : segs.length < lines.length) :
    (∀ i, i < segs.length →
      (match_lines segs D 0 0 lines)[i]?.map (fun e => (e.start_ms, e.end_ms)) =
        segs[i]?) ∧
    (match_lines segs D 0 0 lines)[segs.length]?.map
        (fun e => (e.start_ms, e.end_ms)) =
      some ((segs[segs.length - 1]?.map Prod.snd).getD 0, D) ∧
    (∀ i, segs.length < i → i < lines.length →
      (match_lines segs D 0 0 lines)[i]?.map (fun e => (e.start_ms, e.end_ms)) =
        some (D, D)) := by
  refine ⟨fun i hi => ?_, ?_, fun i hs hl => ?_⟩
  · have := match_lines_bounds_matched segs D lines 0 0 i (by omega) (by omega)
    rwa [Nat.zero_add] at this
  · have := match_lines_bounds_boundary segs D lines 0 0 segs.length h
      (by omega)
    by_cases h0 : segs.length = 0
    · obtain rfl : segs = [] := List.length_eq_zero.mp h0
      rw [if_pos h0] at this
      simpa using this
    · rwa [if_neg h0] at this
  · exact match_lines_bounds_past segs D lines 0 0 i hl (by omega) (by omega)

theorem C2_amended_witness :
    (match_lines [((0:ℤ), (100:ℤ))] 300 0 0 ["a", "b", "c"])[2]?.map
      (fun e => (e.start_ms, e.end_ms)) = some (300, 300) :=
  (C2_amended_matcher_overflow ["a", "b", "c"] [(0, 100)] 300 (by decide)).2.2
    2 (by decide) (by decide)

/-- C3: the facade returns the equal-division result exactly when an
exception occurred or `len(silences) < len(lines) - 1` (integer
arithmetic, as in Python); when no exception occurred and
`len(silences) ≥ len(lines) - 1` it returns the detected-silences
matcher's result. -/
theorem C3_branch_rule (audioLen : ℤ) (lyrics : List String)
    (silences : List (ℤ × ℤ)) (exc : Bool) :
    (exc = true ∨ (silences.length : ℤ) < (lyrics.length : ℤ) - 1 →
      align_with_silence_detection audioLen lyrics silences exc =
        align_with_equal_division audioLen lyrics) ∧
    (exc = false ∧ (lyrics.length : ℤ) - 1 ≤ (silences.length : ℤ) →
      align_with_silence_detection audioLen lyrics silences exc =
        some (align_with_detected_silences audioLen lyrics silences)) := by
  constructor
  · rintro (rfl | hlt)
    · rfl
    · cases exc
      · rw [align_with_silence_detection, if_neg (by simp), if_neg (by omega)]
      · rfl
  · rintro ⟨rfl, hle⟩
    rw [align_with_silence_detection, if_neg (by simp), if_pos hle]

theorem C3_witness :
    align_with_silence_detection 9000 ["a", "b", "c"] [(1000, 1500)] false =
      align_with_equal_division 9000 ["a", "b", "c"] :=
  (C3_branch_rule 9000 ["a", "b", "c"] [(1000, 1500)] false).1
    (Or.inr (by decide))

/-- C4, counterexample: with zero detected silences and zero lyric
lines the facade does not take the equal-division path: the branch test
`0 >= 0 - 1` succeeds, the detected-silences matcher runs on zero
segments and returns `some []`, while equal division on zero lines is a
`ZeroDivisionError` (`none`). -/
theorem C4_counterexample :
    build_segments [] 1000 = [] ∧
    align_with_silence_detection 1000 [] [] false = some [] ∧
    align_with_equal_division 1000 [] = none ∧
    some ([] : List FBEntry) ≠ (none : Option (List FBEntry)) := by decide

/-- C4, amended: zero silences always produce zero segments, and with
zero silences the facade returns the equal-division result whenever
there are at least two lyric lines (for one or zero lines the branch
test `0 >= len(lyrics) - 1` succeeds and the detected-silences matcher
runs instead). -/
theorem C4_amended_zero_silences (audioLen : ℤ) (lyrics : List String)
    (h : 2 ≤ lyrics.length) :
    build_segments [] audioLen = [] ∧
    align_with_silence_detection audioLen lyrics [] false =
      align_with_equal_division audioLen lyrics := by
  refine ⟨rfl, ?_⟩
  rw [align_with_silence_detection, if_neg (by simp), if_neg (by simp; omega)]

theorem C4_amended_witness :
    build_segments [] 9000 = [] ∧
    align_with_silence_detection 9000 ["a", "b", "c"] [] false =
      align_with_equal_division 9000 ["a", "b", "c"] :=
  C4_amended_zero_silences 9000 ["a", "b", "c"] (by decide)

/-- C6: invoking equal division with zero lyric lines is a
`ZeroDivisionError` (`none`), and the facade's exception path — the one
route that reaches equal division with an empty lyric list — propagates
it rather than recovering: the whole request fails. -/
theorem C6_zero_lines_fatal (audioLen : ℤ) (silences : List (ℤ × ℤ)) :
    align_with_equal_division audioLen [] = none ∧
    align_with_silence_detection audioLen [] silences true = none :=
  ⟨rfl, rfl⟩

/-! ## Monotonicity of the rounding model -/

theorem floor_le_rndNE (x : ℚ) : ⌊x⌋ ≤ rndNE x := by
  rw [rndNE]; split_ifs <;> omega

theorem rndNE_le_floor_add_one (x : ℚ) : rndNE x ≤ ⌊x⌋ + 1 := by
  rw [rndNE]; split_ifs <;> omega

theorem rndNE_mono {x y : ℚ} (h : x ≤ y) : rndNE x ≤ rndNE y := by
  rcases lt_or_le ⌊x⌋ ⌊y⌋ with hf | hf
  · calc rndNE x ≤ ⌊x⌋ + 1 := rndNE_le_floor_add_one x
      _ ≤ ⌊y⌋ := by omega
      _ ≤ rndNE y := floor_le_rndNE y
  · have hf' : ⌊y⌋ = ⌊x⌋ := le_antisymm hf (Int.floor_le_floor h)
    rw [rndNE, rndNE, hf']
    split_ifs <;> first | omega | linarith

theorem rndNE_nonneg {x : ℚ} (h : 0 ≤ x) : 0 ≤ rndNE x :=
  le_trans (Int.floor_nonneg.mpr h) (floor_le_rndNE x)

theorem flPos_nonneg {q : ℚ} (h : 0 < q) : 0 ≤ flPos q := by
  rw [flPos]
  have hg : (0:ℚ) < 2 ^ (Int.log 2 q - 52) := zpow_pos (by norm_num) _
  have h1 : (0:ℤ) ≤ rndNE (q / 2 ^ (Int.log 2 q - 52)) :=
    rndNE_nonneg (div_pos h hg).le
  exact mul_nonneg (by exact_mod_cast h1) hg.le

theorem fl_nonneg {q : ℚ} (h : 0 ≤ q) : 0 ≤ fl q := by
  rw [fl, if_neg (by linarith)]
  split_ifs with h2
  · exact le_refl 0
  · exact flPos_nonneg (lt_of_le_of_ne h (Ne.symm h2))

theorem flPos_le_zpow_succ (q : ℚ) :
    flPos q ≤ 2 ^ (Int.log 2 q + 1) := by
  set e := Int.log 2 q with he
  have hg : (0:ℚ) < 2 ^ (e - 52) := zpow_pos (by norm_num) _
  have hpow : (9007199254740992 : ℚ) * 2 ^ (e - 52) = 2 ^ (e + 1) := by
    rw [show (9007199254740992 : ℚ) = 2 ^ (53 : ℤ) by norm_num,
      ← zpow_add₀ (by norm_num : (2:ℚ) ≠ 0) 53 (e - 52)]
    congr 1
    omega
  have hub : q < 2 ^ (e + 1) := Int.lt_zpow_succ_log_self (by norm_num) q
  have hdiv : q / 2 ^ (e - 52) < 9007199254740992 := by
    rw [div_lt_iff₀ hg, hpow]
    exact hub
  have hfloor : ⌊q / 2 ^ (e - 52)⌋ < 9007199254740992 := by
    have h1 : (⌊q / 2 ^ (e - 52)⌋ : ℚ) ≤ q / 2 ^ (e - 52) := Int.floor_le _
    exact_mod_cast lt_of_le_of_lt h1 hdiv
  have hrnd : rndNE (q / 2 ^ (e - 52)) ≤ 9007199254740992 := by
    have := rndNE_le_floor_add_one (q / 2 ^ (e - 52)); omega
  calc flPos q = (rndNE (q / 2 ^ (e - 52)) : ℚ) * 2 ^ (e - 52) := by rw [flPos, ← he]
    _ ≤ (9007199254740992 : ℚ) * 2 ^ (e - 52) :=
        mul_le_mul_of_nonneg_right (by exact_mod_cast hrnd) hg.le
    _ = 2 ^ (e + 1) := hpow

theorem zpow_log_le_flPos {q : ℚ} (hq : 0 < q) :
    (2 : ℚ) ^ (Int.log 2 q) ≤ flPos q := by
  set e := Int.log 2 q with he
  have hg : (0:ℚ) < 2 ^ (e - 52) := zpow_pos (by norm_num) _
  have hpow : (4503599627370496 : ℚ) * 2 ^ (e - 52) = 2 ^ e := by
    rw [show (4503599627370496 : ℚ) = 2 ^ (52 : ℤ) by norm_num,
      ← zpow_add₀ (by norm_num : (2:ℚ) ≠ 0) 52 (e - 52)]
    congr 1
    omega
  have hlb : (2 : ℚ) ^ e ≤ q := Int.zpow_log_le_self (by norm_num) hq
  have hdiv : (4503599627370496 : ℚ) ≤ q / 2 ^ (e - 52) := by
    rw [le_div_iff₀ hg, hpow]
    exact hlb
  have hfloor : (4503599627370496 : ℤ) ≤ ⌊q / 2 ^ (e - 52)⌋ :=
    Int.le_floor.mpr (by exact_mod_cast hdiv)
  have hrnd : (4503599627370496 : ℤ) ≤ rndNE (q / 2 ^ (e - 52)) :=
    le_trans hfloor (floor_le_rndNE _)
  calc (2 : ℚ) ^ e = (4503599627370496 : ℚ) * 2 ^ (e - 52) := hpow.symm
    _ ≤ (rndNE (q / 2 ^ (e - 52)) : ℚ) * 2 ^ (e - 52) :=
        mul_le_mul_of_nonneg_right (by exact_mod_cast hrnd) hg.le
    _ = flPos q := by rw [flPos, ← he]

theorem flPos_mono {x y : ℚ} (hx : 0 < x) (hxy : x ≤ y) : flPos x ≤ flPos y := by
  have hy : 0 < y := lt_of_lt_of_le hx hxy
  have hlog : Int.log 2 x ≤ Int.log 2 y := Int.log_mono_right hx hxy
  rcases eq_or_lt_of_le hlog with heq | hlt
  · rw [flPos, flPos, ← heq]
    have hg : (0:ℚ) < 2 ^ (Int.log 2 x - 52) := zpow_pos (by norm_num) _
    have h1 : rndNE (x / 2 ^ (Int.log 2 x - 52)) ≤
        rndNE (y / 2 ^ (Int.log 2 x - 52)) :=
      rndNE_mono (div_le_div_of_nonneg_right hxy hg.le)
    exact mul_le_mul_of_nonneg_right (by exact_mod_cast h1) hg.le
  · calc flPos x ≤ 2 ^ (Int.log 2 x + 1) := flPos_le_zpow_succ x
      _ ≤ 2 ^ (Int.log 2 y) := zpow_le_zpow_right₀ (by norm_num) (by omega)
      _ ≤ flPos y := zpow_log_le_flPos hy

theorem fl_mono {x y : ℚ} (hx : 0 ≤ x) (hxy : x ≤ y) : fl x ≤ fl y := by
  rcases eq_or_lt_of_le hx with heq | hpos
  · rw [← heq, fl_zero]
    exact fl_nonneg (le_trans hx hxy)
  · rw [fl_of_pos hpos, fl_of_pos (lt_of_lt_of_le hpos hxy)]
    exact flPos_mono hpos hxy

theorem pyInt_mono {a b : ℚ} (ha : 0 ≤ a) (h : a ≤ b) : pyInt a ≤ pyInt b := by
  rw [pyInt, pyInt, if_neg (by linarith), if_neg (by linarith)]
  exact Int.floor_le_floor h

theorem pyInt_zero : pyInt 0 = 0 := by
  rw [pyInt, if_neg (by norm_num)]
  norm_num

/-! ## Concrete double-precision evaluations (cross-checked against CPython) -/

theorem fl_one_div_fortynine : fl (1/49) = 5882252574524729 / 2 ^ 58 := by
  rw [fl_of_pos (by norm_num)]
  refine flPos_eval (e := -6) (m := 5882252574524729) (by norm_num) (by norm_num) ?_ ?_
  · rw [show ((1:ℚ)/49) / 2 ^ ((-6:ℤ) - 52) = 288230376151711744/49 by norm_num]
    exact rndNE_of_lt_half (by norm_num) (by norm_num)
  · norm_num

theorem fl_fortynine : fl ((49 : ℚ)) = 49 := by
  rw [fl_of_pos (by norm_num)]
  refine flPos_eval (e := 5) (m := 49 * 2 ^ 47) (by norm_num) (by norm_num) ?_ ?_
  · rw [show (49:ℚ) / 2 ^ ((5:ℤ) - 52) = ((49 * 2 ^ 47 : ℤ) : ℚ) by push_cast; norm_num]
    exact rndNE_of_lt_half (by norm_num) (by norm_num)
  · push_cast; norm_num

theorem fl_product_fortynine :
    fl (49 * (5882252574524729 / 2 ^ 58)) = 9007199254740991 / 2 ^ 53 := by
  rw [fl_of_pos (by norm_num)]
  refine flPos_eval (e := -1) (m := 9007199254740991) (by norm_num) (by norm_num) ?_ ?_
  · rw [show (49 * ((5882252574524729:ℚ) / 2 ^ 58)) / 2 ^ ((-1:ℤ) - 52)
        = 288230376151711721/32 by norm_num]
    exact rndNE_of_lt_half (by norm_num) (by norm_num)
  · norm_num

theorem fl_one : fl (1 : ℚ) = 1 := by
  rw [fl_of_pos (by norm_num)]
  refine flPos_eval (e := 0) (m := 2 ^ 52) (by norm_num) (by norm_num) ?_ ?_
  · rw [show (1:ℚ) / 2 ^ ((0:ℤ) - 52) = ((2 ^ 52 : ℤ) : ℚ) by push_cast; norm_num]
    exact rndNE_of_lt_half (by norm_num) (by norm_num)
  · push_cast; norm_num

theorem fl_half : fl (1/2 : ℚ) = 1/2 := by
  rw [fl_of_pos (by norm_num)]
  refine flPos_eval (e := -1) (m := 2 ^ 52) (by norm_num) (by norm_num) ?_ ?_
  · rw [show ((1:ℚ)/2) / 2 ^ ((-1:ℤ) - 52) = ((2 ^ 52 : ℤ) : ℚ) by push_cast; norm_num]
    exact rndNE_of_lt_half (by norm_num) (by norm_num)
  · push_cast; norm_num

/-! ## Segment invariants (spec 4.3) and sortedness of the matcher -/

theorem chain'_getElem? {α : Type} {R : α → α → Prop} :
    ∀ (l : List α), l.Chain' R → ∀ (k : ℕ) (a b : α),
      l[k]? = some a → l[k + 1]? = some b → R a b
  | [], _, k, a, b, ha, _ => by simp at ha
  | [x], _, k, a, b, ha, hb => by
    cases k with
    | zero => simp at hb
    | succ k => simp at ha
  | x :: y :: t, h, k, a, b, ha, hb => by
    rw [List.chain'_cons] at h
    cases k with
    | zero =>
      simp only [List.getElem?_cons_zero, Option.some.injEq] at ha
      simp only [List.getElem?_cons_succ, List.getElem?_cons_zero,
        Option.some.injEq] at hb
      rw [← ha, ← hb]
      exact h.1
    | succ k =>
      exact chain'_getElem? (y :: t) h.2 k a b (by simpa using ha)
        (by simpa using hb)

theorem mids_chain : ∀ (l : List (ℤ × ℤ)), (∀ s ∈ l, s.1 ≤ s.2) →
    List.Chain' (fun a b => a.2 ≤ b.1)
      ((l.zip l.tail).map fun p => (p.1.2, p.2.1))
  | [], _ => by simp
  | [a], _ => by simp
  | a :: b :: t, h => by
    have hrec := mids_chain (b :: t) (fun s hs => h s (List.mem_cons_of_mem a hs))
    simp only [List.tail_cons, List.zip_cons_cons, List.map_cons] at hrec ⊢
    rw [List.chain'_cons']
    refine ⟨?_, hrec⟩
    intro y hy
    cases t with
    | nil => simp at hy
    | cons c t2 =>
      simp only [List.zip_cons_cons, List.map_cons, List.head?_cons,
        Option.mem_def, Option.some.injEq] at hy
      rw [← hy]
      exact h b (by simp)

theorem mids_rel : ∀ (l : List (ℤ × ℤ)),
    List.Chain' (fun a b => a.2 ≤ b.1) l →
    ∀ p ∈ l.zip l.tail, p.1.2 ≤ p.2.1
  | [], _, p, hp => by simp at hp
  | [a], _, p, hp => by simp at hp
  | a :: b :: t, h, p, hp => by
    rw [List.chain'_cons] at h
    simp only [List.tail_cons, List.zip_cons_cons, List.mem_cons] at hp
    rcases hp with rfl | hp
    · exact h.1
    · exact mids_rel (b :: t) h.2 p (by simpa using hp)

theorem mids_getLast_snd : ∀ (l : List (ℤ × ℤ)) (x : ℤ × ℤ) (h : l ≠ []),
    ((l.zip l.tail).map fun p => (p.1.2, p.2.1)).getLast? = some x →
    x.2 = (l.getLast h).1
  | [], _, h, _ => absurd rfl h
  | [a], x, _, hx => by simp at hx
  | a :: b :: t, x, _, hx => by
    cases t with
    | nil =>
      simp only [List.tail_cons, List.zip_cons_cons, List.zip_nil_right,
        List.map_cons, List.map_nil, List.getLast?_singleton,
        Option.some.injEq] at hx
      rw [← hx]
      rfl
    | cons c t2 =>
      have hx2 : (((b :: c :: t2).zip (b :: c :: t2).tail).map
          fun p => (p.1.2, p.2.1)).getLast? = some x := by
        simp only [List.tail_cons, List.zip_cons_cons, List.map_cons] at hx ⊢
        rwa [List.getLast?_cons_cons] at hx
      have := mids_getLast_snd (b :: c :: t2) x (by simp) hx2
      rwa [List.getLast_cons (by simp : c :: t2 ≠ [])] at this

/-- With silences that are well-formed (each inside `[0, D]`, start
before end) and ascending/disjoint, every constructed speech segment
lies inside `[0, D]` with start before end (the spec's SpeechSegment
invariant, up to zero-length segments). -/
theorem build_segments_wf (silences : List (ℤ × ℤ)) (D : ℤ)
    (hwf : ∀ s ∈ silences, 0 ≤ s.1 ∧ s.1 ≤ s.2 ∧ s.2 ≤ D)
    (hchain : List.Chain' (fun a b => a.2 ≤ b.1) silences) :
    ∀ g ∈ build_segments silences D, 0 ≤ g.1 ∧ g.1 ≤ g.2 ∧ g.2 ≤ D := by
  intro g hg
  rw [build_segments.eq_def] at hg
  rcases List.mem_append.mp hg with hg1 | hg3
  · rcases List.mem_append.mp hg1 with hga | hgb
    · cases silences with
      | nil => simp at hga
      | cons s0 rest =>
        by_cases h0 : 0 < s0.1
        · simp only [h0, if_true, List.mem_singleton] at hga
          obtain ⟨h1, h2, h3⟩ := hwf s0 (by simp)
          rw [hga]
          exact ⟨le_refl 0, h0.le, le_trans h2 h3⟩
        · simp [h0] at hga
    · obtain ⟨p, hp, rfl⟩ := List.mem_map.mp hgb
      have hrel : p.1.2 ≤ p.2.1 := mids_rel silences hchain p hp
      have hmem := List.of_mem_zip hp
      obtain ⟨ha1, ha2, ha3⟩ := hwf p.1 hmem.1
      obtain ⟨hb1, hb2, hb3⟩ := hwf p.2 (List.mem_of_mem_tail hmem.2)
      exact ⟨by linarith, hrel, by linarith⟩
  · cases hlast : silences.getLast? with
    | none =>
      rw [hlast] at hg3
      simp at hg3
    | some l =>
      rw [hlast] at hg3
      have hlmem : l ∈ silences := by
        cases silences with
        | nil => simp at hlast
        | cons a r =>
          rw [List.getLast?_eq_getLast _ (by simp)] at hlast
          have : (a :: r).getLast (by simp) = l := by
            simpa using hlast
          rw [← this]
          exact List.getLast_mem _
      obtain ⟨h1, h2, h3⟩ := hwf l hlmem
      by_cases hD2 : l.2 < D
      · simp only [hD2, if_true, List.mem_singleton] at hg3
        rw [hg3]
        exact ⟨by linarith, hD2.le, le_refl D⟩
      · simp [hD2] at hg3

/-- Under the same silence invariants, consecutive speech segments are
linked: each segment ends no later than the next one starts. -/
theorem build_segments_chain (silences : List (ℤ × ℤ)) (D : ℤ)
    (hwf : ∀ s ∈ silences, 0 ≤ s.1 ∧ s.1 ≤ s.2 ∧ s.2 ≤ D)
    (hchain : List.Chain' (fun a b => a.2 ≤ b.1) silences) :
    List.Chain' (fun a b => a.2 ≤ b.1) (build_segments silences D) := by
  cases silences with
  | nil => simp [build_segments]
  | cons s0 rest =>
    rw [build_segments.eq_def, List.chain'_append]
    have hmc := mids_chain (s0 :: rest) (fun s hs => (hwf s hs).2.1)
    refine ⟨?_, ?_, ?_⟩
    · rw [List.chain'_append]
      refine ⟨?_, hmc, ?_⟩
      · by_cases h0 : 0 < s0.1 <;> simp [h0]
      · intro x hx y hy
        by_cases h0 : 0 < s0.1
        · simp only [h0, if_true, List.getLast?_singleton, Option.mem_def,
            Option.some.injEq] at hx
          cases rest with
          | nil => simp at hy
          | cons s1 r2 =>
            simp only [List.tail_cons, List.zip_cons_cons, List.map_cons,
              List.head?_cons, Option.mem_def, Option.some.injEq] at hy
            rw [← hx, ← hy]
            exact (hwf s0 (by simp)).2.1
        · simp [h0] at hx
    · cases hlast : (s0 :: rest).getLast? with
      | none => simp at hlast
      | some l => by_cases hD2 : l.2 < D <;> simp [hD2]
    · intro x hx y hy
      cases hlast : (s0 :: rest).getLast? with
      | none => simp at hlast
      | some l =>
        rw [hlast] at hy
        by_cases hD2 : l.2 < D
        · simp only [hD2, if_true, List.head?_cons, Option.mem_def,
            Option.some.injEq] at hy
          have hl : (s0 :: rest).getLast (by simp) = l := by
            rw [List.getLast?_eq_getLast _ (by simp)] at hlast
            simpa using hlast
          -- x is the last element of leading ++ mids; show x.2 ≤ l.2
          cases hr : rest with
          | nil =>
            -- no mids; x comes from the leading piece
            subst hr
            by_cases h0 : 0 < s0.1
            · simp only [h0, if_true, List.tail_cons, List.zip_nil_right,
                List.map_nil, List.append_nil, List.getLast?_singleton,
                Option.mem_def, Option.some.injEq] at hx
              rw [← hx, ← hy]
              have : s0 = l := by simpa using hl
              rw [← this]
              exact (hwf s0 (by simp)).2.1
            · simp [h0] at hx
          | cons s1 r2 =>
            subst hr
            have hmid_ne : (((s0 :: s1 :: r2).zip (s0 :: s1 :: r2).tail).map
                fun p => (p.1.2, p.2.1)) ≠ [] := by
              simp [List.tail_cons, List.zip_cons_cons]
            rw [List.getLast?_append_of_ne_nil _ hmid_ne, Option.mem_def] at hx
            have hx2 := mids_getLast_snd (s0 :: s1 :: r2) x (by simp) hx
            rw [← hy, hx2, hl]
            have : l ∈ s0 :: s1 :: r2 := by
              rw [← hl]
              exact List.getLast_mem _
            exact (hwf l this).2.1
        · simp [hD2] at hy

/-- With well-formed, linked segments and `prev ≤ D`, the matcher's
output is ascending by start and every entry starts no later than it
ends. -/
theorem match_lines_sorted (segs : List (ℤ × ℤ)) (D : ℤ)
    (hwfs : ∀ s ∈ segs, s.1 ≤ s.2 ∧ s.2 ≤ D)
    (hlink : ∀ k a b, segs[k]? = some a → segs[k + 1]? = some b → a.2 ≤ b.1) :
    ∀ (lines : List String) (i0 : ℕ) (prev : ℤ), prev ≤ D →
      List.Chain' (fun e f => e.start_ms ≤ f.start_ms)
        (match_lines segs D i0 prev lines) ∧
      ∀ e ∈ match_lines segs D i0 prev lines, e.start_ms ≤ e.end_ms
  | [], _, _, _ => ⟨by simp [match_lines], by simp [match_lines]⟩
  | t :: rest, i0, prev, hprev => by
    cases hseg : segs[i0]? with
    | some s =>
      have hs := hwfs s (List.getElem?_mem hseg)
      obtain ⟨hc, hm⟩ := match_lines_sorted segs D hwfs hlink rest (i0 + 1) s.2 hs.2
      simp only [match_lines, hseg]
      refine ⟨?_, ?_⟩
      · rw [List.chain'_cons']
        refine ⟨?_, hc⟩
        intro y hy
        cases rest with
        | nil => simp [match_lines] at hy
        | cons t2 r2 =>
          cases hseg2 : segs[i0 + 1]? with
          | some s2 =>
            simp only [match_lines, hseg2, List.head?_cons, Option.mem_def,
              Option.some.injEq] at hy
            rw [← hy]
            have := hlink i0 s s2 hseg hseg2
            show s.1 ≤ s2.1
            linarith [hs.1]
          | none =>
            simp only [match_lines, hseg2, List.head?_cons, Option.mem_def,
              Option.some.injEq] at hy
            rw [← hy]
            exact hs.1
      · intro e he
        rcases List.mem_cons.mp he with rfl | he2
        · exact hs.1
        · exact hm e he2
    | none =>
      have hlen : segs.length ≤ i0 := by
        by_contra hc
        rw [List.getElem?_eq_getElem (by omega)] at hseg
        exact Option.noConfusion hseg
      obtain ⟨hc, hm⟩ := match_lines_sorted segs D hwfs hlink rest (i0 + 1) D
        (le_refl D)
      simp only [match_lines, hseg]
      refine ⟨?_, ?_⟩
      · rw [List.chain'_cons']
        refine ⟨?_, hc⟩
        intro y hy
        cases rest with
        | nil => simp [match_lines] at hy
        | cons t2 r2 =>
          have hseg2 : segs[i0 + 1]? = none := List.getElem?_eq_none (by omega)
          simp only [match_lines, hseg2, List.head?_cons, Option.mem_def,
            Option.some.injEq] at hy
          rw [← hy]
          exact hprev
      · intro e he
        rcases List.mem_cons.mp he with rfl | he2
        · exact hprev
        · exact hm e he2

/-! ## Equal division: bounds, adjacency, sortedness -/

theorem eq_div_bound_mono (sd : ℚ) (hsd : 0 ≤ sd) (j : ℕ) :
    pyInt (fl (fl (j : ℚ) * sd)) ≤ pyInt (fl (fl ((j : ℚ) + 1) * sd)) := by
  have h0 : (0:ℚ) ≤ (j : ℚ) := Nat.cast_nonneg j
  have h1 : fl (j : ℚ) ≤ fl ((j : ℚ) + 1) := fl_mono h0 (by linarith)
  have h2 : (0:ℚ) ≤ fl (j : ℚ) := fl_nonneg h0
  have h3 : fl (j : ℚ) * sd ≤ fl ((j : ℚ) + 1) * sd :=
    mul_le_mul_of_nonneg_right h1 hsd
  have h4 : (0:ℚ) ≤ fl (j : ℚ) * sd := mul_nonneg h2 hsd
  exact pyInt_mono (fl_nonneg h4) (fl_mono h4 h3)

theorem enumMap_eqdiv_sorted (sd : ℚ) (hsd : 0 ≤ sd) :
    ∀ (l : List String) (i : ℕ),
      List.Chain' (fun e f => e.start_ms ≤ f.start_ms)
        (enumMap (fun i t => (⟨pyInt (fl (fl (i : ℚ) * sd)),
          pyInt (fl (fl ((i : ℚ) + 1) * sd)), t⟩ : FBEntry)) i l) ∧
      ∀ e ∈ enumMap (fun i t => (⟨pyInt (fl (fl (i : ℚ) * sd)),
          pyInt (fl (fl ((i : ℚ) + 1) * sd)), t⟩ : FBEntry)) i l,
        e.start_ms ≤ e.end_ms
  | [], _ => ⟨by simp [enumMap], by simp [enumMap]⟩
  | t :: rest, i => by
    obtain ⟨hc, hm⟩ := enumMap_eqdiv_sorted sd hsd rest (i + 1)
    refine ⟨?_, ?_⟩
    · rw [enumMap, List.chain'_cons']
      refine ⟨?_, hc⟩
      intro y hy
      cases rest with
      | nil => simp [enumMap] at hy
      | cons t2 r2 =>
        simp only [enumMap, List.head?_cons, Option.mem_def,
          Option.some.injEq] at hy
        rw [← hy]
        show pyInt (fl (fl (i : ℚ) * sd)) ≤ pyInt (fl (fl ((i + 1 : ℕ) : ℚ) * sd))
        have hcast : ((i + 1 : ℕ) : ℚ) = (i : ℚ) + 1 := by push_cast; ring
        rw [hcast]
        exact eq_div_bound_mono sd hsd i
    · intro e he
      rw [enumMap] at he
      rcases List.mem_cons.mp he with rfl | he2
      · exact eq_div_bound_mono sd hsd i
      · exact hm e he2

/-! ## Claims C5, C7 -/

/-- C5, counterexample: with audio duration `1` ms and `49` lyric
lines, the claimed interval formula fails: the last line's end should
be `⌊49 · 1/49⌋ = 1`, but the code computes
`int(49 * (1/49)) = int(0.9999999999999999) = 0` in double precision,
so the intervals do not cover `[0, D)`. -/
theorem C5_counterexample :
    ((align_with_equal_division 1 (List.replicate 49 "x")).getD [])[48]?.map
      FBEntry.end_ms = some 0 ∧
    ⌊((48 : ℚ) + 1) * ((1 : ℚ) / 49)⌋ = 1 ∧ (0 : ℤ) ≠ 1 := by
  refine ⟨?_, by norm_num, by norm_num⟩
  rw [align_with_equal_division, if_neg (by simp)]
  simp only [Option.getD_some, enumMap_getElem?, List.getElem?_replicate,
    List.length_replicate]
  norm_num
  rw [fl_fortynine, fl_one_div_fortynine, fl_product_fortynine]
  rw [pyInt, if_neg (by norm_num)]
  exact Int.floor_eq_iff.mpr (by norm_num)

/-- C5, amended: for a nonnegative duration and a non-empty lyric list,
equal division assigns line `i` the interval
`[int(fl(fl(i)·sd)), int(fl(fl(i+1)·sd)))` with `sd = fl(D/n)` computed
in binary64: the first start is `0`, each entry's end equals the next
entry's start, and every entry's start is at most its end — so the
intervals tile `[0, lastEnd)` with no gaps or overlaps.  The closed
form `⌊i·D/n⌋` and exact coverage of `[0, D)` can fail by double
rounding (see the counterexample: `D = 1`, `n = 49` ends at `0`, not
`1`). -/
theorem C5_amended_equal_division (audioLen : ℤ) (lyrics : List String)
    (hD : 0 ≤ audioLen) (h : lyrics ≠ []) :
    ∃ r, align_with_equal_division audioLen lyrics = some r ∧
      r.length = lyrics.length ∧
      r[0]?.map FBEntry.start_ms = some 0 ∧
      (∀ i, i + 1 < r.length →
        r[i]?.map FBEntry.end_ms = r[i + 1]?.map FBEntry.start_ms) ∧
      (∀ i, i < r.length → ∃ e, r[i]? = some e ∧ e.start_ms ≤ e.end_ms) := by
  have hsd : (0:ℚ) ≤ fl ((audioLen : ℚ) / (lyrics.length : ℚ)) :=
    fl_nonneg (div_nonneg (by exact_mod_cast hD) (Nat.cast_nonneg _))
  rw [align_with_equal_division, if_neg (by simpa using h)]
  refine ⟨_, rfl, enumMap_length _ 0 lyrics, ?_, ?_, ?_⟩
  · obtain ⟨a, as, rfl⟩ : ∃ a as, lyrics = a :: as := by
      cases lyrics with
      | nil => exact absurd rfl h
      | cons a as => exact ⟨a, as, rfl⟩
    rw [enumMap_getElem?]
    simp [fl_zero, pyInt_zero]
  · intro i hi
    rw [enumMap_length] at hi
    obtain ⟨a, ha⟩ : ∃ a, lyrics[i]? = some a :=
      ⟨_, List.getElem?_eq_getElem (by omega)⟩
    obtain ⟨b, hb⟩ : ∃ b, lyrics[i + 1]? = some b :=
      ⟨_, List.getElem?_eq_getElem (by omega)⟩
    rw [enumMap_getElem?, enumMap_getElem?, ha, hb]
    simp only [Option.map_some']
    congr 2
    push_cast
    ring
  · intro i hi
    rw [enumMap_length] at hi
    obtain ⟨a, ha⟩ : ∃ a, lyrics[i]? = some a :=
      ⟨_, List.getElem?_eq_getElem (by omega)⟩
    rw [enumMap_getElem?, ha]
    exact ⟨_, rfl, eq_div_bound_mono _ hsd (0 + i)⟩

theorem C5_amended_witness :
    ∃ r, align_with_equal_division 9000 ["a", "b", "c"] = some r ∧
      r.length = (["a", "b", "c"] : List String).length ∧
      r[0]?.map FBEntry.start_ms = some 0 ∧
      (∀ i, i + 1 < r.length →
        r[i]?.map FBEntry.end_ms = r[i + 1]?.map FBEntry.start_ms) ∧
      (∀ i, i < r.length → ∃ e, r[i]? = some e ∧ e.start_ms ≤ e.end_ms) :=
  C5_amended_equal_division 9000 ["a", "b", "c"] (by decide) (by decide)

/-- C7, counterexample: with audio duration `1` ms and two lyric lines,
equal division produces the entry `[0, 0)` (with `[0, 1)` after it):
its end is not strictly greater than its start, and this is not the
matcher's collapsed-tail case — it is the equal-division branch. -/
theorem C7_counterexample :
    ((align_with_equal_division 1 ["a", "b"]).getD [])[0]?.map
      (fun e => (e.start_ms, e.end_ms)) = some (0, 0) ∧ ¬ ((0 : ℤ) < 0) := by
  refine ⟨?_, by norm_num⟩
  rw [align_with_equal_division, if_neg (by simp)]
  simp only [Option.getD_some, enumMap_getElem?, List.length_cons,
    List.length_nil, List.getElem?_cons_zero, Option.map_some']
  rw [show ((1 : ℤ) : ℚ) / ((0 + 1 + 1 : ℕ) : ℚ) = 1/2 by norm_num]
  norm_num [fl_zero, pyInt_zero]
  rw [fl_one, fl_half, one_mul, fl_half]
  rw [pyInt, if_neg (by norm_num)]
  exact Int.floor_eq_iff.mpr (by norm_num)

/-- C7, amended: for silences satisfying the SilenceInterval invariant
(within `[0, D]`, start before end, ascending and disjoint) the
detected-silences matcher's output is ascending by start with each
entry's start at most its end, and equal division's output likewise;
`end > start` can fail not only in the matcher's collapsed tail but
also for zero-length speech segments (touching silences) and for
equal-division entries when the duration is smaller than the line
count. -/
theorem C7_amended_sorted (audioLen : ℤ) (lyrics : List String)
    (silences : List (ℤ × ℤ)) (hD : 0 ≤ audioLen)
    (hchain : List.Chain' (fun a b => a.2 ≤ b.1) silences)
    (hwf : ∀ s ∈ silences, 0 ≤ s.1 ∧ s.1 ≤ s.2 ∧ s.2 ≤ audioLen) :
    (List.Chain' (fun e f => e.start_ms ≤ f.start_ms)
        (align_with_detected_silences audioLen lyrics silences) ∧
      ∀ e ∈ align_with_detected_silences audioLen lyrics silences,
        e.start_ms ≤ e.end_ms) ∧
    (∀ r, align_with_equal_division audioLen lyrics = some r →
      List.Chain' (fun e f => e.start_ms ≤ f.start_ms) r ∧
      ∀ e ∈ r, e.start_ms ≤ e.end_ms) := by
  constructor
  · have hsegs := build_segments_wf silences audioLen hwf hchain
    have hsegchain := build_segments_chain silences audioLen hwf hchain
    rw [align_with_detected_silences]
    exact match_lines_sorted (build_segments silences audioLen) audioLen
      (fun s hs => ⟨(hsegs s hs).2.1, (hsegs s hs).2.2⟩)
      (fun k a b ha hb => chain'_getElem? _ hsegchain k a b ha hb)
      lyrics 0 0 hD
  · intro r hr
    rw [align_with_equal_division] at hr
    by_cases hl : lyrics.isEmpty
    · rw [if_pos hl] at hr
      exact absurd hr (by simp)
    · rw [if_neg hl] at hr
      rw [← Option.some.inj hr]
      exact enumMap_eqdiv_sorted _
        (fl_nonneg (div_nonneg (by exact_mod_cast hD) (Nat.cast_nonneg _)))
        lyrics 0

theorem C7_amended_witness :
    (List.Chain' (fun e f => e.start_ms ≤ f.start_ms)
        (align_with_detected_silences 5000 ["a", "b"] [(2000, 2500)]) ∧
      ∀ e ∈ align_with_detected_silences 5000 ["a", "b"] [(2000, 2500)],
        e.start_ms ≤ e.end_ms) ∧
    (∀ r, align_with_equal_division 5000 ["a", "b"] = some r →
      List.Chain' (fun e f => e.start_ms ≤ f.start_ms) r ∧
      ∀ e ∈ r, e.start_ms ≤ e.end_ms) :=
  C7_amended_sorted 5000 ["a", "b"] [(2000, 2500)] (by decide) (by simp)
    (by decide)

/-! ## Claims C8-C10: the Format Normalizer -/

theorem fl_thousand : fl (1000 : ℚ) = 1000 := by
  rw [fl_of_pos (by norm_num)]
  refine flPos_eval (e := 9) (m := 1000 * 2 ^ 43) (by norm_num) (by norm_num) ?_ ?_
  · rw [show (1000:ℚ) / 2 ^ ((9:ℤ) - 52) = ((1000 * 2 ^ 43 : ℤ) : ℚ) by
      push_cast; norm_num]
    exact rndNE_of_lt_half (by norm_num) (by norm_num)
  · push_cast; norm_num

theorem fl_three_thousand : fl (3000 : ℚ) = 3000 := by
  rw [fl_of_pos (by norm_num)]
  refine flPos_eval (e := 11) (m := 3000 * 2 ^ 41) (by norm_num) (by norm_num) ?_ ?_
  · rw [show (3000:ℚ) / 2 ^ ((11:ℤ) - 52) = ((3000 * 2 ^ 41 : ℤ) : ℚ) by
      push_cast; norm_num]
    exact rndNE_of_lt_half (by norm_num) (by norm_num)
  · push_cast; norm_num

theorem fl_three : fl (3 : ℚ) = 3 := by
  rw [fl_of_pos (by norm_num)]
  refine flPos_eval (e := 1) (m := 3 * 2 ^ 51) (by norm_num) (by norm_num) ?_ ?_
  · rw [show (3:ℚ) / 2 ^ ((1:ℤ) - 52) = ((3 * 2 ^ 51 : ℤ) : ℚ) by
      push_cast; norm_num]
    exact rndNE_of_lt_half (by norm_num) (by norm_num)
  · push_cast; norm_num

theorem enumMap_map (f : ℕ → β → γ) (g : α → β) :
    ∀ (i : ℕ) (l : List α),
      enumMap f i (l.map g) = enumMap (fun i a => f i (g a)) i l
  | _, [] => rfl
  | i, a :: as => by
    rw [List.map_cons, enumMap, enumMap, enumMap_map f g (i + 1) as]

/-- The fallback normalization loop on a list of well-formed entries:
every lookup succeeds and each entry is converted positionally, its
millisecond fields divided by `1000.0`. -/
theorem norm_fallback_typed :
    ∀ (l : List (ℤ × ℤ × JValue)) (i : ℕ),
      norm_fallback i (l.map fun x => fb_item x.1 x.2.1 x.2.2) =
        some (enumMap (fun i x =>
          (⟨i, fl (fl (x.1 : ℚ) / 1000), fl (fl (x.2.1 : ℚ) / 1000),
            x.2.2⟩ : NormEntry)) i l)
  | [], _ => rfl
  | x :: rest, i => by
    rw [List.map_cons, norm_fallback, norm_fallback_typed rest (i + 1)]
    simp [fb_item, py_index, dict_get?, py_div_1000, List.find?, enumMap]

/-- C8: for every fallback-schema artifact — a list whose entries carry
`start_ms`, `end_ms` and `text` — the normalizer returns one entry per
artifact entry, with `index` its position, `start` and `end` the
millisecond fields divided by `1000.0` (double division) and the text
unchanged; in particular `{"start_ms": 1000, "end_ms": 3000, "text":
"hello"}` normalizes to start `1.0`, end `3.0`, text `"hello"` with no
error reported. -/
theorem C8_normalizer_fallback_schema (l : List (ℤ × ℤ × JValue)) :
    (parse_alignment_json
        (some (.jarr (l.map fun x => fb_item x.1 x.2.1 x.2.2)))).1 =
      enumMap (fun i x =>
        (⟨i, fl (fl (x.1 : ℚ) / 1000), fl (fl (x.2.1 : ℚ) / 1000),
          x.2.2⟩ : NormEntry)) 0 l ∧
    parse_alignment_json (some (.jarr [fb_item 1000 3000 (.jstr "hello")])) =
      ([⟨0, 1, 3, .jstr "hello"⟩], false) := by
  constructor
  · cases l with
    | nil => rfl
    | cons x rest =>
      rw [show ((x :: rest).map fun x => fb_item x.1 x.2.1 x.2.2) =
          fb_item x.1 x.2.1 x.2.2 ::
            (rest.map fun x => fb_item x.1 x.2.1 x.2.2) by simp,
        parse_alignment_json, parse_body]
      rw [show py_contains_start_ms (fb_item x.1 x.2.1 x.2.2) = some true by
        simp [fb_item, py_contains_start_ms]]
      rw [show (fb_item x.1 x.2.1 x.2.2 :: (rest.map fun x =>
          fb_item x.1 x.2.1 x.2.2)) = ((x :: rest).map fun x =>
          fb_item x.1 x.2.1 x.2.2) by simp,
        norm_fallback_typed]
  · have hpb : parse_body (.jarr [fb_item 1000 3000 (.jstr "hello")]) =
        norm_fallback 0 [fb_item 1000 3000 (.jstr "hello")] := by
      rw [parse_body, show py_contains_start_ms (fb_item 1000 3000
        (.jstr "hello")) = some true by simp [fb_item, py_contains_start_ms]]
    have hnf : norm_fallback 0 [fb_item 1000 3000 (.jstr "hello")] =
        some [⟨0, 1, 3, .jstr "hello"⟩] := by
      simp [norm_fallback, fb_item, py_index, dict_get?, py_div_1000,
        fl_thousand, fl_three_thousand, fl_one, fl_three,
        show ((1000 : ℚ)/1000) = 1 by norm_num,
        show ((3000 : ℚ)/1000) = 3 by norm_num]
    rw [parse_alignment_json, hpb, hnf]

/-- C9: an unparseable file, and every structurally malformed or
unrecognized artifact value (empty JSON list included), makes
`parse_alignment_json` return the empty sequence with the error
reported via the `except` handler — it never raises to the caller. -/
theorem C9_malformed_artifact (v : JValue) :
    parse_alignment_json none = ([], true) ∧
    (bad_shape v = true → parse_alignment_json (some v) = ([], true)) := by
  refine ⟨rfl, fun hv => ?_⟩
  cases v with
  | jobj fields => simp [bad_shape] at hv
  | jarr xs =>
    cases xs with
    | nil => rfl
    | cons x rest =>
      cases hc : py_contains_start_ms x with
      | none => simp [parse_alignment_json, parse_body, hc]
      | some b =>
        cases b
        · simp [parse_alignment_json, parse_body, hc, aeneas_branch, py_get]
        · rw [bad_shape] at hv
          simp [hc] at hv
  | jnull => rfl
  | jbool b => rfl
  | jint n => rfl
  | jstr s => rfl

theorem C9_witness : parse_alignment_json (some (.jarr [])) = ([], true) :=
  (C9_malformed_artifact (.jarr [])).2 rfl

/-- C10: saving any fallback alignment list with `save_alignment` and
reading the artifact back with `parse_alignment_json` yields one entry
per saved entry — index its position, `start`/`end` the saved
millisecond values divided by `1000.0`, text unchanged — with the
length preserved; the empty list round-trips to the empty sequence
(through the `except` handler, since an empty JSON list fails the
schema probe). -/
theorem C10_save_parse_roundtrip (l : List FBEntry) :
    parse_alignment_json (some (save_alignment_json l)) =
      (enumMap (fun i e =>
        (⟨i, fl (fl (e.start_ms : ℚ) / 1000), fl (fl (e.end_ms : ℚ) / 1000),
          .jstr e.text⟩ : NormEntry)) 0 l, l.isEmpty) ∧
    (parse_alignment_json (some (save_alignment_json l))).1.length =
      l.length := by
  have hsave : save_alignment_json l =
      .jarr ((l.map fun e => (e.start_ms, e.end_ms, JValue.jstr e.text)).map
        fun x => fb_item x.1 x.2.1 x.2.2) := by
    rw [save_alignment_json, List.map_map]
    rfl
  have hmain : parse_alignment_json (some (save_alignment_json l)) =
      (enumMap (fun i e =>
        (⟨i, fl (fl (e.start_ms : ℚ) / 1000), fl (fl (e.end_ms : ℚ) / 1000),
          .jstr e.text⟩ : NormEntry)) 0 l, l.isEmpty) := by
    cases l with
    | nil => rfl
    | cons x rest =>
      rw [hsave]
      rw [show (((x :: rest).map fun e =>
          (e.start_ms, e.end_ms, JValue.jstr e.text)).map
          fun x => fb_item x.1 x.2.1 x.2.2) =
          fb_item x.start_ms x.end_ms (.jstr x.text) ::
          ((rest.map fun e => (e.start_ms, e.end_ms, JValue.jstr e.text)).map
            fun x => fb_item x.1 x.2.1 x.2.2) by simp]
      rw [parse_alignment_json, parse_body]
      rw [show py_contains_start_ms (fb_item x.start_ms x.end_ms
          (.jstr x.text)) = some true by simp [fb_item, py_contains_start_ms]]
      rw [show (fb_item x.start_ms x.end_ms (JValue.jstr x.text) ::
          ((rest.map fun e => (e.start_ms, e.end_ms, JValue.jstr e.text)).map
            fun x => fb_item x.1 x.2.1 x.2.2)) =
          (((x :: rest).map fun e =>
            (e.start_ms, e.end_ms, JValue.jstr e.text)).map
            fun x => fb_item x.1 x.2.1 x.2.2) by simp,
        norm_fallback_typed, enumMap_map]
      rfl
  refine ⟨hmain, ?_⟩
  rw [hmain]
  exact enumMap_length _ 0 l
